import Mathlib

/-!
Shallow embedding of `src/depload.cpp` (an IDA plugin that loads dependency
modules and cross-references imports against exported functions).

Strings are modelled as `List Char` (C strings without their terminating NUL).
The host disassembly engine (segment table, import table, function table,
file loading) is modelled as explicit data passed in; the four host steps of
`load()` that can fail are modelled as booleans in `Host`.
-/

namespace Depload

/-- Decimal-digit test from `mapinexports` (src/depload.cpp:377): a
character is rejected when `c < '0' || c > '9'`, i.e. accepted when
`'0' <= c && c <= '9'`. -/
def isDigitChar (c : Char) : Bool :=
  '0' ≤ c && c ≤ '9'

/-- Model of `strrchr(l, t)` followed by taking the text on both sides of the
returned pointer: splits `l` at the LAST occurrence of `t`, returning the part
strictly before it and the part strictly after it; `none` when `t` does not
occur in `l` (strrchr returns NULL). -/
def splitLastChar (t : Char) : List Char → Option (List Char × List Char)
  | [] => none
  | c :: rest =>
    match splitLastChar t rest with
    | some (b, s) => some (c :: b, s)
    | none => if c = t then some ([], rest) else none

/-- Name-suffix detection from `mapinexports` (src/depload.cpp:372-390):
`strrchr(fname, c)` finds the last underscore (none ⇒ not a candidate,
`trunc = 0`); then every character after it is checked with the digit test —
the loop accepts vacuously when nothing follows the underscore.  On success
the name is truncated in place (`*ptr = 0`); we return both the base (before
the underscore) and the suffix (the digits left in the buffer after the
written NUL), since `importmap` later restores the underscore. -/
def truncName (name : List Char) : Option (List Char × List Char) :=
  match splitLastChar '_' name with
  | none => none
  | some (b, s) => if s.all isDigitChar then some (b, s) else none

/-- The `struct _imname` (src/depload.cpp:35-38) together with the hidden
buffer content: `base` is the text before the written NUL (what `strlen`/
`strncmp` see), `suffix` the digit text that is still in the buffer after it
and that de-truncation (writing `'_'` back) re-attaches. -/
structure Imname where
  base : List Char
  suffix : List Char

/-- One entry of a host import table, as handed to the `enum_import_names`
callback: address, optional name (NULL for ordinal-only entries), ordinal. -/
structure ImportEntry where
  address : Nat
  name : Option (List Char)
  ord : Nat
deriving DecidableEq

/-- The match test of `importmap` (src/depload.cpp:306-313): unnamed entries
are skipped (`if(!name) return 1`); otherwise
`!strncmp(name, imname->name, strlen(imname->name))`, i.e. the base is an
exact, case-sensitive leading segment of the import name. -/
def importMatches (base : List Char) (e : ImportEntry) : Bool :=
  match e.name with
  | none => false
  | some n => base.isPrefixOf n

/-- The comment text built by `importmap` (src/depload.cpp:314-317): the
code first de-truncates (`*(imname->name + len) = '_'`), so `%s` prints the
base, the restored underscore, and the digit suffix still in the buffer. -/
def importCmt (im : Imname) : List Char :=
  "import -> ".toList ++ im.base ++ '_' :: im.suffix

/-- One `importmap` callback invocation (src/depload.cpp:298-325) acting on
the host's comment store, modelled as a map from addresses to an optional
comment: on a match, `set_cmt(ea, comment, true)` overwrites the comment at
the entry's address. -/
def importmap (im : Imname) (e : ImportEntry)
    (cmts : Nat → Option (List Char)) : Nat → Option (List Char) :=
  if importMatches im.base e then
    fun a => if a = e.address then some (importCmt im) else cmts a
  else cmts

/-- `enum_import_names` over all modules (src/depload.cpp:398-400): the
callback runs once per import entry, in order, threading the comment store. -/
def importmapAll (im : Imname) (entries : List ImportEntry)
    (cmts : Nat → Option (List Char)) : Nat → Option (List Char) :=
  entries.foldl (fun c e => importmap im e c) cmts

/-- One function of the primary binary as seen by `mapinexports`:
`is_public_name(limits.startEA)` and its `get_func_name` text. -/
structure FuncEntry where
  isPublic : Bool
  fname : List Char

/-- The per-function body of the `mapinexports` sweep
(src/depload.cpp:349-401): skip non-public functions; run name-suffix
detection; only when truncation happened (`imname.trunc`) enumerate, with
`importmap`, every entry of every module's table. -/
def mapinexportsStep (f : FuncEntry) (entries : List ImportEntry)
    (cmts : Nat → Option (List Char)) : Nat → Option (List Char) :=
  if f.isPublic then
    match truncName f.fname with
    | some (b, s) => importmapAll ⟨b, s⟩ entries cmts
    | none => cmts
  else cmts

/-- `isloaded` (src/depload.cpp:65-79): walk the linked list of loaded
files and compare each stored `filename` with `strcmp` (exact, case-sensitive
whole-string equality). -/
def isloaded (filename : List Char) (registry : List (List Char)) : Bool :=
  registry.any (fun f => f == filename)

/-- Registration step of `load` (src/depload.cpp:224-228): the new node is
linked at `loadedend`, i.e. appended at the end of the list. -/
def registerPath (registry : List (List Char)) (p : List Char) : List (List Char) :=
  registry ++ [p]

/-- A registration guarded by the caller contract as `load` performs it
(src/depload.cpp:168-169 then 224-228): the path is appended only when
`isloaded` does not already report it. -/
def registerChecked (registry : List (List Char)) (p : List Char) : List (List Char) :=
  if isloaded p registry then registry else registerPath registry p

/-- The persisted per-segment provenance comment built by `load`
(src/depload.cpp:217): `sprintf_s(segn, ..., "\ndep: %s\n", filename)`. -/
def depCmt (filename : List Char) : List Char :=
  "\ndep: ".toList ++ filename ++ "\n".toList

/-- The session-restore parse in `run` (src/depload.cpp:434-443): skip the
comment unless it has at least 6 characters and its first 6 bytes are
`"\ndep: "`; then drop that 6-byte lead and cut off the final character
(`*(cmt + fnlen - 1) = 0`, the trailing newline of the stored format). -/
def parseDepCmt : List Char → Option (List Char)
  | '\n' :: 'd' :: 'e' :: 'p' :: ':' :: ' ' :: rest => some rest.dropLast
  | _ => none

/-- A host segment as `load` sees it: its name and its optional comment
(`get_segment_cmt` returning NULL models `cmt = none`). -/
structure Segment where
  sname : List Char
  cmt : Option (List Char)
deriving DecidableEq

/-- The per-segment body of the success path of `load`
(src/depload.cpp:197-219): a segment that already carries a comment is left
alone; otherwise `strrchr(filename, c)` looks for the last backslash — when
there is none the segment is skipped entirely; when there is one the segment
is renamed to the text after it and given the `dep:` provenance comment. -/
def loadSegUpdate (filename : List Char) (s : Segment) : Segment :=
  match s.cmt with
  | some _ => s
  | none =>
    match splitLastChar '\\' filename with
    | none => s
    | some (_, file) => { sname := file, cmt := some (depCmt filename) }

/-- Outcome of each fallible host step used by `load`: `open_linput`,
`build_loaders_list`, `malloc`, `load_nonbinary_file`. -/
structure Host where
  openOk : Bool
  loaderOk : Bool
  allocOk : Bool
  applyOk : Bool

/-- The three resources `load` acquires: the open input file, the loader
list, and the heap node for the registry. -/
inductive Res where
  | linput
  | loaders
  | node
deriving DecidableEq

/-- A resource acquisition or release performed by `load`. -/
inductive Event where
  | acquire (r : Res)
  | release (r : Res)
deriving DecidableEq

/-- How many times `load` acquired resource `r`. -/
def acquires (r : Res) (es : List Event) : Nat := es.count (Event.acquire r)

/-- How many times `load` released resource `r`. -/
def releases (r : Res) (es : List Event) : Nat := es.count (Event.release r)

/-- Return code and observable state after a call to `load`. -/
structure LoadResult where
  code : Int
  registry : List (List Char)
  segments : List Segment
  events : List Event
deriving DecidableEq

/-- `load` (src/depload.cpp:155-231).  The branches mirror the C early
returns in order, each listing exactly the cleanup calls the C performs on
that path: already loaded (-2, before any host call); `open_linput` fails
(-1, nothing acquired); `build_loaders_list` fails (-1, `close_linput`);
`malloc` fails (-1, `free_loaders_list`, `close_linput`);
`load_nonbinary_file` fails (-1, `free(ptr)`, `free_loaders_list`,
`close_linput`).  On success the segment loop runs, the loader list and the
input are released, and the node carrying the path is appended to the
registry (the node itself is retained, now owned by the registry).
`segments` is the host segment table as it stands after the apply step. -/
def load (host : Host) (registry : List (List Char)) (segments : List Segment)
    (filename : List Char) : LoadResult :=
  if isloaded filename registry then
    ⟨-2, registry, segments, []⟩
  else if host.openOk = false then
    ⟨-1, registry, segments, []⟩
  else if host.loaderOk = false then
    ⟨-1, registry, segments, [Event.acquire Res.linput, Event.release Res.linput]⟩
  else if host.allocOk = false then
    ⟨-1, registry, segments,
      [Event.acquire Res.linput, Event.acquire Res.loaders,
       Event.release Res.loaders, Event.release Res.linput]⟩
  else if host.applyOk = false then
    ⟨-1, registry, segments,
      [Event.acquire Res.linput, Event.acquire Res.loaders, Event.acquire Res.node,
       Event.release Res.node, Event.release Res.loaders, Event.release Res.linput]⟩
  else
    ⟨0, registerPath registry filename, segments.map (loadSegUpdate filename),
      [Event.acquire Res.linput, Event.acquire Res.loaders, Event.acquire Res.node,
       Event.release Res.loaders, Event.release Res.linput]⟩

/-! ### Helper lemmas -/

lemma splitLastChar_eq_none {t : Char} {l : List Char} :
    splitLastChar t l = none ↔ t ∉ l := by
  induction l with
  | nil => simp [splitLastChar]
  | cons c rest ih =>
    cases h : splitLastChar t rest with
    | some p =>
      obtain ⟨b, s⟩ := p
      have ht : t ∈ rest := by
        by_contra hm
        have h0 := ih.mpr hm
        rw [h] at h0
        exact Option.noConfusion h0
      simp [splitLastChar, h, List.mem_cons, ht]
    | none =>
      have hr : t ∉ rest := ih.mp h
      by_cases hc : c = t
      · subst hc
        simp [splitLastChar, h]
      · simp only [splitLastChar, h, if_neg hc, List.mem_cons]
        constructor
        · intro _ hmem
          rcases hmem with h1 | h2
          · exact hc h1.symm
          · exact hr h2
        · intro _
          trivial

lemma splitLastChar_eq_some {t : Char} : ∀ {l b s : List Char},
    splitLastChar t l = some (b, s) ↔ l = b ++ t :: s ∧ t ∉ s := by
  intro l
  induction l with
  | nil =>
    intro b s
    simp [splitLastChar]
  | cons c rest ih =>
    intro b s
    cases h : splitLastChar t rest with
    | some p =>
      obtain ⟨b1, s1⟩ := p
      have hrest : rest = b1 ++ t :: s1 ∧ t ∉ s1 := ih.mp h
      simp only [splitLastChar, h, Option.some.injEq, Prod.mk.injEq]
      constructor
      · rintro ⟨hb, hs⟩
        subst hb
        subst hs
        exact ⟨by rw [hrest.1]; rfl, hrest.2⟩
      · rintro ⟨hl, hs⟩
        cases b with
        | nil =>
          injection hl with h1 h2
          subst h1
          subst h2
          exact absurd (by rw [hrest.1]; exact List.mem_append_right _ (List.mem_cons_self _ _)) hs
        | cons c0 b0 =>
          injection hl with h1 h2
          have h3 := ih.mpr ⟨h2, hs⟩
          rw [h] at h3
          injection h3 with h4
          injection h4 with h5 h6
          exact ⟨by rw [h1, h5], h6⟩
    | none =>
      have hr : t ∉ rest := splitLastChar_eq_none.mp h
      by_cases hc : c = t
      · subst hc
        simp only [splitLastChar, h, if_pos rfl, if_true, Option.some.injEq, Prod.mk.injEq]
        constructor
        · rintro ⟨hb, hs⟩
          subst hb
          subst hs
          exact ⟨rfl, hr⟩
        · rintro ⟨hl, hs⟩
          cases b with
          | nil =>
            injection hl with h1 h2
            exact ⟨rfl, h2⟩
          | cons c0 b0 =>
            injection hl with h1 h2
            exact absurd (by rw [h2]; exact List.mem_append_right _ (List.mem_cons_self _ _)) hr
      · simp only [splitLastChar, h, if_neg hc]
        constructor
        · intro h0
          exact Option.noConfusion h0
        · rintro ⟨hl, hs⟩
          cases b with
          | nil =>
            injection hl with h1 h2
            exact absurd h1 hc
          | cons c0 b0 =>
            injection hl with h1 h2
            exact absurd (by rw [h2]; exact List.mem_append_right _ (List.mem_cons_self _ _)) hr

lemma truncName_eq_some {name b s : List Char} :
    truncName name = some (b, s) ↔
      name = b ++ '_' :: s ∧ '_' ∉ s ∧ s.all isDigitChar = true := by
  unfold truncName
  cases h : splitLastChar '_' name with
  | none =>
    have hn : '_' ∉ name := splitLastChar_eq_none.mp h
    simp only []
    constructor
    · intro h0
      exact Option.noConfusion h0
    · rintro ⟨hl, _, _⟩
      exact absurd (by rw [hl]; exact List.mem_append_right _ (List.mem_cons_self _ _)) hn
  | some p =>
    obtain ⟨b1, s1⟩ := p
    have hp : name = b1 ++ '_' :: s1 ∧ '_' ∉ s1 := splitLastChar_eq_some.mp h
    by_cases hd : s1.all isDigitChar = true
    · simp only [if_pos hd, Option.some.injEq, Prod.mk.injEq]
      constructor
      · rintro ⟨hb, hs⟩
        subst hb
        subst hs
        exact ⟨hp.1, hp.2, hd⟩
      · rintro ⟨hl, hs, hall⟩
        have h3 : splitLastChar '_' name = some (b, s) := splitLastChar_eq_some.mpr ⟨hl, hs⟩
        rw [h] at h3
        injection h3 with h4
        injection h4 with h5 h6
        exact ⟨h5, h6⟩
    · simp only [if_neg hd]
      constructor
      · intro h0
        exact Option.noConfusion h0
      · rintro ⟨hl, hs, hall⟩
        have h3 : splitLastChar '_' name = some (b, s) := splitLastChar_eq_some.mpr ⟨hl, hs⟩
        rw [h] at h3
        injection h3 with h4
        injection h4 with h5 h6
        exact (hd (h6.symm ▸ hall)).elim

lemma isPrefixOf_iff_append : ∀ {b n : List Char}, b.isPrefixOf n = true ↔ ∃ t, n = b ++ t := by
  intro b
  induction b with
  | nil =>
    intro n
    simp [List.isPrefixOf]
  | cons c b ih =>
    intro n
    cases n with
    | nil =>
      simp [List.isPrefixOf]
    | cons d n1 =>
      simp only [List.isPrefixOf, Bool.and_eq_true, beq_iff_eq, ih, List.cons_append,
        List.cons.injEq]
      constructor
      · rintro ⟨rfl, t, rfl⟩
        exact ⟨t, rfl, rfl⟩
      · rintro ⟨t, rfl, rfl⟩
        exact ⟨rfl, t, rfl⟩

lemma isloaded_iff {p : List Char} {r : List (List Char)} :
    isloaded p r = true ↔ p ∈ r := by
  simp only [isloaded, List.any_eq_true, beq_iff_eq]
  constructor
  · rintro ⟨f, hf, rfl⟩
    exact hf
  · intro hp
    exact ⟨p, hp, rfl⟩

lemma all_isDigitChar_no_underscore {ds : List Char} (h : ds.all isDigitChar = true) :
    '_' ∉ ds := by
  intro hm
  have hd : isDigitChar '_' = true := List.all_eq_true.mp h _ hm
  simp [isDigitChar] at hd

lemma importmapAll_frame (im : Imname) :
    ∀ (entries : List ImportEntry) (cmts : Nat → Option (List Char)) (a : Nat),
      cmts a = some (importCmt im) →
        importmapAll im entries cmts a = some (importCmt im) := by
  intro entries
  induction entries with
  | nil =>
    intro cmts a h
    exact h
  | cons e rest ih =>
    intro cmts a h
    show importmapAll im rest (importmap im e cmts) a = some (importCmt im)
    apply ih
    unfold importmap
    by_cases hm : importMatches im.base e = true
    · rw [if_pos hm]
      by_cases ha : a = e.address
      · rw [if_pos ha]
      · rw [if_neg ha]
        exact h
    · rw [if_neg hm]
      exact h

lemma importmapAll_mem (im : Imname) :
    ∀ (entries : List ImportEntry) (cmts : Nat → Option (List Char)) (e : ImportEntry),
      e ∈ entries → importMatches im.base e = true →
        importmapAll im entries cmts e.address = some (importCmt im) := by
  intro entries
  induction entries with
  | nil =>
    intro cmts e he
    exact absurd he (List.not_mem_nil e)
  | cons x rest ih =>
    intro cmts e he hm
    rcases List.mem_cons.mp he with h1 | h2
    · subst h1
      show importmapAll im rest (importmap im e cmts) e.address = some (importCmt im)
      apply importmapAll_frame
      unfold importmap
      rw [if_pos hm, if_pos rfl]
    · exact ih (importmap im x cmts) e h2 hm

lemma loadSegUpdate_id {filename : List Char} (h : '\\' ∉ filename) (s : Segment) :
    loadSegUpdate filename s = s := by
  unfold loadSegUpdate
  cases s with
  | mk sn c =>
    cases c with
    | some c0 => rfl
    | none =>
      rw [splitLastChar_eq_none.mpr h]

lemma map_loadSegUpdate {filename : List Char} (h : '\\' ∉ filename) :
    ∀ segments : List Segment, segments.map (loadSegUpdate filename) = segments := by
  intro segments
  induction segments with
  | nil => rfl
  | cons s rest ih =>
    simp [loadSegUpdate_id h, ih]

lemma load_of_isloaded (host : Host) {registry : List (List Char)}
    (segments : List Segment) {filename : List Char}
    (h : isloaded filename registry = true) :
    load host registry segments filename = ⟨-2, registry, segments, []⟩ := by
  unfold load
  rw [h]
  rfl

lemma load_success (host : Host) {registry : List (List Char)}
    (segments : List Segment) {filename : List Char}
    (hn : isloaded filename registry = false)
    (ho : host.openOk = true) (hl : host.loaderOk = true)
    (ha : host.allocOk = true) (hp : host.applyOk = true) :
    load host registry segments filename =
      ⟨0, registerPath registry filename, segments.map (loadSegUpdate filename),
        [Event.acquire Res.linput, Event.acquire Res.loaders, Event.acquire Res.node,
         Event.release Res.loaders, Event.release Res.linput]⟩ := by
  unfold load
  rw [hn, ho, hl, ha, hp]
  rfl

lemma load_code_zero {host : Host} {registry : List (List Char)}
    {segments : List Segment} {filename : List Char}
    (h : (load host registry segments filename).code = 0) :
    isloaded filename registry = false ∧
      (load host registry segments filename).registry = registerPath registry filename := by
  obtain ⟨o, l, a, p⟩ := host
  unfold load at *
  cases hn : isloaded filename registry <;> rw [hn] at h <;>
    cases o <;> cases l <;> cases a <;> cases p <;> simp_all

/-! ### Claim theorems -/

/-- Claim C1 counterexample: the claim says a name with an underscore but an
EMPTY suffix ("Foo_") is not a candidate, yet the code's digit loop accepts
the empty suffix vacuously, so "Foo_" IS truncated, with base "Foo". -/
theorem truncName_empty_suffix :
    truncName "Foo_".toList = some ("Foo".toList, []) := by decide

/-- Claim C1 (amended): a candidate function name is truncated exactly when
it contains an underscore and every character after the LAST underscore is a
decimal digit, where ZERO such characters also qualifies (the digit check is
vacuous for an empty suffix); the base is the text before that underscore.
Concretely: "Foo_123" → truncated, base "Foo"; "Foo_12a" → not a candidate;
"Foo" → not a candidate; "Foo_" → truncated, base "Foo". -/
theorem name_suffix_detection :
    (∀ name b s : List Char,
        truncName name = some (b, s) ↔
          name = b ++ '_' :: s ∧ '_' ∉ s ∧ s.all isDigitChar = true) ∧
    truncName "Foo_123".toList = some ("Foo".toList, "123".toList) ∧
    truncName "Foo_12a".toList = none ∧
    truncName "Foo".toList = none ∧
    truncName "Foo_".toList = some ("Foo".toList, []) :=
  ⟨fun _ _ _ => truncName_eq_some, by decide, by decide, by decide, by decide⟩

/-- Claim C1 witness: the amended characterization applied at a concrete
name. -/
theorem name_suffix_detection_inst :
    truncName "Bar_77".toList = some ("Bar".toList, "77".toList) :=
  (name_suffix_detection.1 "Bar_77".toList "Bar".toList "77".toList).mpr (by decide)

/-- Claim C2 counterexample: for the truncated candidate "Foo_123" (base
"Foo") matching import "Foo", the comment written is "import -> Foo_123"
(the code de-truncates, restoring the underscore and the numeric suffix,
before formatting), not "import -> Foo" as the claim states. -/
theorem importCmt_not_base :
    mapinexportsStep ⟨true, "Foo_123".toList⟩ [⟨0, some "Foo".toList, 0⟩]
        (fun _ => none) 0 = some ("import -> Foo_123".toList) ∧
      "import -> Foo_123".toList ≠ "import -> Foo".toList := by
  exact ⟨by decide, by decide⟩

/-- Claim C2 (amended): for every matching import entry, the comment
attached at the entry's address is exactly "import -> <originalName>" where
originalName is the FULL pre-truncation function name — the base, the
restored underscore, and the numeric suffix. -/
theorem import_cmt_text (f : FuncEntry) (b s n : List Char)
    (entries : List ImportEntry) (cmts : Nat → Option (List Char))
    (e : ImportEntry)
    (hpub : f.isPublic = true) (ht : truncName f.fname = some (b, s))
    (he : e ∈ entries) (hn : e.name = some n) (hm : b.isPrefixOf n = true) :
    mapinexportsStep f entries cmts e.address =
      some ("import -> ".toList ++ f.fname) := by
  have hname : f.fname = b ++ '_' :: s := (truncName_eq_some.mp ht).1
  have hmatch : importMatches b e = true := by
    unfold importMatches
    rw [hn]
    exact hm
  have hres := importmapAll_mem ⟨b, s⟩ entries cmts e he hmatch
  have hstep : mapinexportsStep f entries cmts = importmapAll ⟨b, s⟩ entries cmts := by
    unfold mapinexportsStep
    rw [hpub, ht]
    rfl
  rw [hstep, hname, ← List.append_assoc]
  exact hres

/-- Claim C2 witness: the amended comment text at a concrete function and
concrete import list. -/
theorem import_cmt_text_inst :
    mapinexportsStep ⟨true, "Foo_123".toList⟩ [⟨5, some "Foo@4".toList, 0⟩]
        (fun _ => none) 5 = some ("import -> ".toList ++ "Foo_123".toList) :=
  import_cmt_text ⟨true, "Foo_123".toList⟩ "Foo".toList "123".toList
    "Foo@4".toList [⟨5, some "Foo@4".toList, 0⟩] (fun _ => none)
    ⟨5, some "Foo@4".toList, 0⟩ rfl (by decide) (by decide) rfl (by decide)

/-- Claim C3: an import entry matches a truncated candidate's base exactly
when the entry has a name (unnamed, ordinal-only entries never match) and
the base is an exact, case-sensitive leading piece of that name; base "Foo"
matches "Foo", "Foo@4", "FooBar" and matches neither "Fo" nor "xFoo". -/
theorem import_matching :
    (∀ (b : List Char) (e : ImportEntry) (n : List Char),
        e.name = some n → (importMatches b e = true ↔ ∃ t, n = b ++ t)) ∧
    (∀ (b : List Char) (e : ImportEntry),
        e.name = none → importMatches b e = false) ∧
    importMatches "Foo".toList ⟨0, some "Foo".toList, 0⟩ = true ∧
    importMatches "Foo".toList ⟨0, some "Foo@4".toList, 0⟩ = true ∧
    importMatches "Foo".toList ⟨0, some "FooBar".toList, 0⟩ = true ∧
    importMatches "Foo".toList ⟨0, some "Fo".toList, 0⟩ = false ∧
    importMatches "Foo".toList ⟨0, some "xFoo".toList, 0⟩ = false ∧
    importMatches "Foo".toList ⟨0, none, 4⟩ = false := by
  refine ⟨?_, ?_, by decide, by decide, by decide, by decide, by decide, by decide⟩
  · intro b e n hn
    unfold importMatches
    rw [hn]
    exact isPrefixOf_iff_append
  · intro b e hn
    unfold importMatches
    rw [hn]

/-- Claim C3 witness: the match characterization applied at a concrete base
and entry. -/
theorem import_matching_inst :
    importMatches "Pr".toList ⟨9, some "Print".toList, 0⟩ = true :=
  (import_matching.1 "Pr".toList ⟨9, some "Print".toList, 0⟩ "Print".toList
    rfl).mpr ⟨"int".toList, by decide⟩

/-- Claim C4: a load that fails at any step after the already-loaded check
(open fails, no loader matches, allocation fails, or the host import-apply
step fails) returns -1, leaves the registry and the segment table unchanged,
and every resource acquired up to that point — open file handle, loader-list
handle, allocated node — is released exactly once. -/
theorem load_failure_atomicity (host : Host) (registry : List (List Char))
    (segments : List Segment) (filename : List Char) (r : Res)
    (hnl : isloaded filename registry = false)
    (hfail : host.openOk = false ∨ host.loaderOk = false ∨
      host.allocOk = false ∨ host.applyOk = false) :
    (load host registry segments filename).code = -1 ∧
    (load host registry segments filename).registry = registry ∧
    (load host registry segments filename).segments = segments ∧
    releases r (load host registry segments filename).events =
      acquires r (load host registry segments filename).events ∧
    acquires r (load host registry segments filename).events ≤ 1 := by
  obtain ⟨o, l, a, p⟩ := host
  cases o <;> cases l <;> cases a <;> cases p <;> simp_all [load] <;>
    cases r <;> decide

/-- Claim C4 witness: a load whose import-apply step fails, checked at the
allocated-node resource. -/
theorem load_failure_atomicity_inst :
    (load ⟨true, true, true, false⟩ [] [] "a".toList).code = -1 ∧
    (load ⟨true, true, true, false⟩ [] [] "a".toList).registry = [] ∧
    (load ⟨true, true, true, false⟩ [] [] "a".toList).segments = [] ∧
    releases Res.node (load ⟨true, true, true, false⟩ [] [] "a".toList).events =
      acquires Res.node (load ⟨true, true, true, false⟩ [] [] "a".toList).events ∧
    acquires Res.node (load ⟨true, true, true, false⟩ [] [] "a".toList).events ≤ 1 :=
  load_failure_atomicity ⟨true, true, true, false⟩ [] [] "a".toList Res.node
    (by decide) (Or.inr (Or.inr (Or.inr rfl)))

/-- Claim C5: if the path is already in the registry, load returns -2 before
any side effect — no host call, no segment change, no registry change — and
in particular a second load of a path just loaded successfully returns -2
with the registry unchanged. -/
theorem already_loaded_first (host host2 : Host) (registry : List (List Char))
    (segments segments2 : List Segment) (filename : List Char) :
    (isloaded filename registry = true →
      load host registry segments filename = ⟨-2, registry, segments, []⟩) ∧
    ((load host registry segments filename).code = 0 →
      load host2 (load host registry segments filename).registry segments2 filename =
        ⟨-2, (load host registry segments filename).registry, segments2, []⟩) := by
  constructor
  · intro h
    exact load_of_isloaded host segments h
  · intro h
    obtain ⟨hn, hreg⟩ := load_code_zero h
    apply load_of_isloaded
    rw [hreg]
    exact isloaded_iff.mpr (by simp [registerPath])

/-- Claim C5 witness: both parts at concrete inputs — a registry already
holding the path, and a load-then-reload of the same path. -/
theorem already_loaded_first_inst :
    load ⟨true, true, true, true⟩ ["a".toList] [] "a".toList =
      ⟨-2, ["a".toList], [], []⟩ ∧
    load ⟨true, true, true, true⟩
        (load ⟨true, true, true, true⟩ [] [] "a".toList).registry [] "a".toList =
      ⟨-2, (load ⟨true, true, true, true⟩ [] [] "a".toList).registry, [], []⟩ :=
  ⟨(already_loaded_first ⟨true, true, true, true⟩ ⟨true, true, true, true⟩
      ["a".toList] [] [] "a".toList).1 (by decide),
   (already_loaded_first ⟨true, true, true, true⟩ ⟨true, true, true, true⟩
      [] [] [] "a".toList).2 (by decide)⟩

/-- Claim C6: after registering a path (appending its node to the list),
isloaded reports it, and isloaded is exact, case-sensitive, whole-string
equality: a path that is merely a proper leading piece, a different-case
variant, or a substring of a stored path is not reported loaded. -/
theorem registry_membership :
    (∀ (p : List Char) (registry : List (List Char)),
        isloaded p (registerPath registry p) = true) ∧
    (∀ (p : List Char) (registry : List (List Char)),
        isloaded p registry = true ↔ p ∈ registry) ∧
    isloaded "abc".toList ["abcd".toList] = false ∧
    isloaded "abc".toList ["ABC".toList] = false ∧
    isloaded "bc".toList ["abc".toList] = false := by
  refine ⟨?_, fun _ _ => isloaded_iff, by decide, by decide, by decide⟩
  intro p registry
  exact isloaded_iff.mpr (by simp [registerPath])

/-- Claim C6 witness: membership after a concrete registration. -/
theorem registry_membership_inst :
    isloaded "x".toList (registerPath [] "x".toList) = true :=
  registry_membership.1 "x".toList []

/-- Claim C7: every registration appends at the end of the ordered list, so
registering p1, p2, p3 in that order yields exactly [p1, p2, p3]; and under
the caller contract (registration guarded by the isloaded check, as load
performs it) a duplicate-free registry stays duplicate-free. -/
theorem registry_order :
    (∀ p1 p2 p3 : List Char,
        registerPath (registerPath (registerPath [] p1) p2) p3 = [p1, p2, p3]) ∧
    (∀ (ps : List (List Char)) (registry : List (List Char)),
        registry.Nodup → (ps.foldl registerChecked registry).Nodup) := by
  constructor
  · intro p1 p2 p3
    rfl
  · intro ps
    induction ps with
    | nil =>
      intro registry h
      exact h
    | cons p rest ih =>
      intro registry h
      apply ih
      unfold registerChecked
      by_cases hl : isloaded p registry = true
      · rw [if_pos hl]
        exact h
      · rw [if_neg hl]
        have hp : p ∉ registry := fun hm => hl (isloaded_iff.mpr hm)
        simp [registerPath, List.nodup_append, h, hp]

/-- Claim C7 witness: a concrete guarded registration sequence containing a
duplicate request stays duplicate-free. -/
theorem registry_order_inst :
    (["a".toList, "b".toList, "a".toList].foldl registerChecked []).Nodup :=
  registry_order.2 ["a".toList, "b".toList, "a".toList] [] List.nodup_nil

/-- Claim C8: for every file path without a newline, formatting it as the
segment provenance comment "\ndep: <filePath>\n" and parsing that comment
back with the session-restore logic (6-byte lead check and strip, trailing
character cut) yields the original path exactly. -/
theorem provenance_roundtrip (fp : List Char) (_h : '\n' ∉ fp) :
    parseDepCmt (depCmt fp) = some fp := by
  have h1 : depCmt fp = '\n' :: 'd' :: 'e' :: 'p' :: ':' :: ' ' :: (fp ++ ['\n']) := rfl
  rw [h1]
  show some ((fp ++ ['\n']).dropLast) = some fp
  rw [List.dropLast_concat]

/-- Claim C8 witness: the round trip at a concrete Windows-style path. -/
theorem provenance_roundtrip_inst :
    parseDepCmt (depCmt "C:\\lib\\foo.dll".toList) = some "C:\\lib\\foo.dll".toList :=
  provenance_roundtrip "C:\\lib\\foo.dll".toList (by decide)

/-- Claim C9: a public function whose name is an underscore followed only by
decimal digits truncates to the empty base; the empty base is a leading
piece of every string, so every named import entry receives the annotation
for that function. -/
theorem empty_base_matches_all (ds : List Char) (entries : List ImportEntry)
    (cmts : Nat → Option (List Char)) (e : ImportEntry) (n : List Char)
    (hds : ds.all isDigitChar = true) (he : e ∈ entries) (hn : e.name = some n) :
    truncName ('_' :: ds) = some ([], ds) ∧
    (([] : List Char).isPrefixOf n = true) ∧
    mapinexportsStep ⟨true, '_' :: ds⟩ entries cmts e.address =
      some ("import -> ".toList ++ '_' :: ds) := by
  have ht : truncName ('_' :: ds) = some ([], ds) :=
    truncName_eq_some.mpr ⟨rfl, all_isDigitChar_no_underscore hds, hds⟩
  have hmatch : importMatches [] e = true := by
    unfold importMatches
    rw [hn]
    exact isPrefixOf_iff_append.mpr ⟨n, rfl⟩
  refine ⟨ht, isPrefixOf_iff_append.mpr ⟨n, rfl⟩, ?_⟩
  have hstep : mapinexportsStep ⟨true, '_' :: ds⟩ entries cmts =
      importmapAll ⟨[], ds⟩ entries cmts := by
    unfold mapinexportsStep
    rw [ht]
    rfl
  rw [hstep]
  exact importmapAll_mem ⟨[], ds⟩ entries cmts e he hmatch

/-- Claim C9 witness: function "_123" annotates a concrete named import. -/
theorem empty_base_matches_all_inst :
    truncName ('_' :: "123".toList) = some ([], "123".toList) ∧
    (([] : List Char).isPrefixOf "Bar".toList = true) ∧
    mapinexportsStep ⟨true, '_' :: "123".toList⟩ [⟨3, some "Bar".toList, 0⟩]
        (fun _ => none) 3 = some ("import -> ".toList ++ '_' :: "123".toList) :=
  empty_base_matches_all "123".toList [⟨3, some "Bar".toList, 0⟩] (fun _ => none)
    ⟨3, some "Bar".toList, 0⟩ "Bar".toList (by decide) (by decide) rfl

/-- Claim C10: on a successful load, a segment is renamed and given the
"dep:" provenance comment only when the file path contains a backslash; for
a path with no backslash the load still succeeds and registers the path
while every segment is left untouched. -/
theorem backslash_only_provenance (host : Host) (registry : List (List Char))
    (segments : List Segment) (filename fn : List Char) (s : Segment)
    (hnl : isloaded filename registry = false)
    (ho : host.openOk = true) (hl : host.loaderOk = true)
    (ha : host.allocOk = true) (hp : host.applyOk = true)
    (hnb : '\\' ∉ filename)
    (hne : loadSegUpdate fn s ≠ s) :
    (load host registry segments filename).code = 0 ∧
    (load host registry segments filename).registry = registerPath registry filename ∧
    (load host registry segments filename).segments = segments ∧
    '\\' ∈ fn := by
  rw [load_success host segments hnl ho hl ha hp]
  refine ⟨rfl, rfl, map_loadSegUpdate hnb segments, ?_⟩
  by_cases hb : '\\' ∈ fn
  · exact hb
  · exact absurd (loadSegUpdate_id hb s) hne

/-- Claim C10 witness: a backslash-free path loads with untouched segments,
and a path that does rewrite a segment contains a backslash. -/
theorem backslash_only_provenance_inst :
    (load ⟨true, true, true, true⟩ [] [⟨"seg".toList, none⟩] "foo.dll".toList).code = 0 ∧
    (load ⟨true, true, true, true⟩ [] [⟨"seg".toList, none⟩]
        "foo.dll".toList).registry = registerPath [] "foo.dll".toList ∧
    (load ⟨true, true, true, true⟩ [] [⟨"seg".toList, none⟩]
        "foo.dll".toList).segments = [⟨"seg".toList, none⟩] ∧
    '\\' ∈ "a\\b".toList :=
  backslash_only_provenance ⟨true, true, true, true⟩ [] [⟨"seg".toList, none⟩]
    "foo.dll".toList "a\\b".toList ⟨"x".toList, none⟩
    (by decide) rfl rfl rfl rfl (by decide) (by decide)

end Depload
